import Mathlib

/-!
Verification development for the Map-Reduce EHR aggregation program
(`src/Code.go`).  The Go program is shallowly embedded: pure computations
become Lean functions over `List Char` / `String`, the Go `map[string]int`
becomes an insertion-ordered association list, goroutine panics become an
explicit `GoResult.panicked` outcome, and Go channel operations are modelled
by an explicit step relation.  Every definition is translated from the
source file; theorems below check the specification's claims against it.
-/

/-- Outcome of a Go computation that may abort the running goroutine with a
runtime panic (for this program: an index-out-of-range access). -/
inductive GoResult (α : Type) where
  | panicked : GoResult α
  | ok : α → GoResult α
deriving DecidableEq, Repr

/-- Character is not whitespace (the predicate Go's `strings.Fields` splits
on, negated). -/
def notWS (c : Char) : Bool := !c.isWhitespace

/-- Accumulator-passing scanner behind `words`; `acc` holds the (reversed)
characters of the token currently being read. -/
def wordsAux (cs : List Char) (acc : List Char) : List (List Char) :=
  match cs with
  | [] => if acc.isEmpty then [] else [acc.reverse]
  | c :: rest =>
    if c.isWhitespace then
      if acc.isEmpty then wordsAux rest [] else acc.reverse :: wordsAux rest []
    else wordsAux rest (c :: acc)

/-- Models Go `strings.Fields` at the character-list level: the maximal runs
of non-whitespace characters, in order, with whitespace runs as separators. -/
def words (cs : List Char) : List (List Char) := wordsAux cs []

/-- Models Go `strings.Fields(s)`. -/
def fields (s : String) : List String := (words s.data).map String.mk

/-- EHR record, translated from the Go struct `EHR` in `src/Code.go`. -/
structure EHR where
  PatientID : String
  Name : String
  Age : String
  Diagnosis : String
  Treatment : String
deriving DecidableEq, Repr

/-- Translation of Go `ParseEHR` (`src/Code.go` lines 40-49): split the line
with `strings.Fields` and index `fields[0]` … `fields[5]` directly.  The Go
code performs no length check, so a line with fewer than six tokens hits an
index-out-of-range runtime panic, modelled by `GoResult.panicked`. -/
def ParseEHR (line : String) : GoResult EHR :=
  match fields line with
  | f0 :: f1 :: f2 :: f3 :: f4 :: f5 :: _ =>
      GoResult.ok { PatientID := f0, Name := f1 ++ " " ++ f2, Age := f3,
                    Diagnosis := f4, Treatment := f5 }
  | _ => GoResult.panicked

/-- Token predicate: a nonempty, whitespace-free string (what
`strings.Fields` produces and what round-trips through the `value count`
line format). -/
def isToken (s : String) : Prop :=
  s.data ≠ [] ∧ ∀ c ∈ s.data, c.isWhitespace = false

/-- Go `map[string]int`, modelled as an insertion-ordered association list
with pairwise-distinct keys.  Insertion order is a deterministic stand-in
for Go's unspecified map iteration order; every claim below is stated so
that only the multiset of entries matters. -/
abbrev GoMap := List (String × Int)

/-- Go map read `m[k]` (a missing key reads as the zero value `0`). -/
def mapGet (m : GoMap) (k : String) : Int :=
  match m with
  | [] => 0
  | (k', v) :: rest => if k' = k then v else mapGet rest k

/-- Go `m[k] += c` (and `m[k]++` with `c = 1`): update the entry in place,
or append a fresh entry — Go creates the key even when `c = 0`. -/
def addCount (m : GoMap) (k : String) (c : Int) : GoMap :=
  match m with
  | [] => [(k, c)]
  | (k', v) :: rest =>
      if k' = k then (k', v + c) :: rest else (k', v) :: addCount rest k c

/-- Keys of a Go map model, in insertion order. -/
def keys (m : GoMap) : List String := m.map Prod.fst

/-- Distinctness of keys: the defining invariant of a Go map. -/
def keysNodup (m : GoMap) : Prop := (keys m).Nodup

/-- All keys of the map are tokens. -/
def tokenKeys (m : GoMap) : Prop := ∀ p ∈ m, isToken p.1

/-- Accumulate a whole table into `acc` entry by entry (the effect of
reading back a serialized table, entry order preserved). -/
def addAll (acc : GoMap) (d : GoMap) : GoMap :=
  match d with
  | [] => acc
  | p :: rest => addAll (addCount acc p.1 p.2) rest

/-- Total count the entries of `d` with key `x` contribute. -/
def entrySum (d : GoMap) (x : String) : Int :=
  match d with
  | [] => 0
  | p :: rest => (if p.1 = x then p.2 else 0) + entrySum rest x

/-- Decimal digit character for a digit value (`_` collapses to `'9'`,
reached only at `9` since the argument is always a remainder mod 10). -/
def digitChar : Nat → Char
  | 0 => '0'
  | 1 => '1'
  | 2 => '2'
  | 3 => '3'
  | 4 => '4'
  | 5 => '5'
  | 6 => '6'
  | 7 => '7'
  | 8 => '8'
  | _ => '9'

/-- Fuel-driven decimal printer behind `natDigits` (structural recursion so
concrete evaluation reduces in the kernel). -/
def natDigitsAux : Nat → Nat → List Char
  | 0, _ => []
  | fuel + 1, n =>
      if n < 10 then [digitChar n]
      else natDigitsAux fuel (n / 10) ++ [digitChar (n % 10)]

/-- Decimal digits of `n`, most significant first: the characters
`fmt.Fprintf`'s `%v` verb prints for a nonnegative Go `int`. -/
def natDigits (n : Nat) : List Char := natDigitsAux (n + 1) n

/-- Numeric value read back from a digit string, as the reduce-side
scanner accumulates it. -/
def digitsVal (ds : List Char) : Nat :=
  ds.foldl (fun a c => a * 10 + (c.toNat - 48)) 0

/-- Models the `%v` verb of `fmt.Sscanf` reading a Go `int` from the body
of a token: a maximal nonempty run of decimal digits (`none` — a scan error
— when the token starts with a non-digit). -/
def scanIntCore (cs : List Char) : Option Int :=
  let ds := cs.takeWhile Char.isDigit
  if ds.isEmpty then none else some ((digitsVal ds : Nat) : Int)

/-- Models the `%v` verb of `fmt.Sscanf` reading a Go `int` from a whole
token: an optional leading minus sign, then digits. -/
def scanIntTok (cs : List Char) : Option Int :=
  match cs with
  | [] => none
  | c :: rest =>
      if c = '-' then (scanIntCore rest).map (fun n => -n)
      else scanIntCore (c :: rest)

/-- Characters `fmt.Fprintf`'s `%v` verb prints for a Go `int`. -/
def intRepr (c : Int) : List Char :=
  if c < 0 then '-' :: natDigits c.natAbs else natDigits c.natAbs

/-- Line written by `fmt.Fprintf(file, "%v %v\n", value, count)` in
`src/Code.go` (lines 83, 94, 156, 161): the value, one space, the decimal
count.  Files are modelled as the lists of lines a `bufio.Scanner` yields,
so the trailing newline is implicit. -/
def serializeLine (v : String) (c : Int) : String :=
  String.mk (v.data ++ ' ' :: intRepr c)

/-- Contents of an intermediate (or report-section) file: one `value count`
line per map entry, in iteration order. -/
def serializeTable (m : GoMap) : List String :=
  m.map (fun p => serializeLine p.1 p.2)

/-- Models `fmt.Sscanf(line, "%v %v", &s, &n)` with the returned error
ignored, exactly as the reduce loops in `src/Code.go` (lines 118, 138) do:
a missing or unparsable piece leaves the Go zero value (`""` for the
string, `0` for the int) behind. -/
def sscanfValueCount (line : String) : String × Int :=
  match words line.data with
  | w :: x :: _ => (String.mk w, (scanIntTok x).getD 0)
  | [w] => (String.mk w, 0)
  | [] => ("", 0)

/-- One reduce-side scanner loop over a file's lines (`src/Code.go`
lines 115-120 and 135-140): `Sscanf` each line — error ignored — then
`counts[value] += count`. -/
def readLines (lines : List String) (acc : GoMap) : GoMap :=
  match lines with
  | [] => acc
  | line :: rest =>
      readLines rest (addCount acc (sscanfValueCount line).1 (sscanfValueCount line).2)

/-- One step of the map-task scanner loop (`src/Code.go` lines 64-68):
parse the line — a short line panics the goroutine — then increment the
diagnosis and treatment counters. -/
def mapStep (st : GoResult (GoMap × GoMap)) (line : String) :
    GoResult (GoMap × GoMap) :=
  match st with
  | GoResult.panicked => GoResult.panicked
  | GoResult.ok (d, t) =>
    match ParseEHR line with
    | GoResult.panicked => GoResult.panicked
    | GoResult.ok e =>
        GoResult.ok (addCount d e.Diagnosis 1, addCount t e.Treatment 1)

/-- In-memory tallies (`diagnosisCounts`, `treatmentCounts`) a map task
builds from its partition's lines, or the goroutine panic caused by a
malformed line (`src/Code.go` lines 52-68). -/
def mapTaskTables (lines : List String) : GoResult (GoMap × GoMap) :=
  lines.foldl mapStep (GoResult.ok ([], []))

/-- Invariant of the in-memory tallies: distinct keys, all of them
tokens. -/
def goodMap (m : GoMap) : Prop := keysNodup m ∧ tokenKeys m

/-- Accumulating loop of `ReduceTask` over all map tasks' intermediate
files (`src/Code.go` lines 105-145): for each map task, open and scan its
diagnosis file, then its treatment file.  A file is modelled as the list of
lines its `bufio.Scanner` yields; `none` models an unopenable file
(`os.Open` error), which makes the reduce task send the error on its
results channel and return. -/
def readPairs (files : List (Option (List String) × Option (List String)))
    (dAcc tAcc : GoMap) : Option (GoMap × GoMap) :=
  match files with
  | [] => some (dAcc, tAcc)
  | (df, tf) :: rest =>
    match df with
    | none => none
    | some dLines =>
      match tf with
      | none => none
      | some tLines =>
          readPairs rest (readLines dLines dAcc) (readLines tLines tAcc)

/-- Outcome of the reduce task: abort on an unreadable file, or the lines
of the written report. -/
inductive ReduceOutcome where
  | ioError : ReduceOutcome
  | ok : List String → ReduceOutcome
deriving DecidableEq, Repr

/-- Full `ReduceTask` (`src/Code.go` lines 101-164): accumulate every
intermediate file pair, then write `reduce-out.txt`: a
`"Diagnosis Counts:"` header, one `value count` line per diagnosis entry, a
`"Treatment Counts:"` header, and one `value count` line per treatment
entry. -/
def ReduceTaskRun (files : List (Option (List String) × Option (List String))) :
    ReduceOutcome :=
  match readPairs files [] [] with
  | none => ReduceOutcome.ioError
  | some (d, t) =>
      ReduceOutcome.ok ("Diagnosis Counts:" ::
        (serializeTable d ++ "Treatment Counts:" :: serializeTable t))

/-- Decides whether a line parses as two whitespace-separated tokens whose
second token scans as an integer — the shape the intermediate-store read
contract expects. -/
def parsesTwoTokens (line : String) : Bool :=
  match words line.data with
  | _ :: x :: _ => (scanIntTok x).isSome
  | _ => false

/-- State of a Go channel, abstracted to the counts that matter for
blocking behaviour: its capacity, the number of values currently buffered,
and the numbers of completed sends and completed receives. -/
structure GoChan where
  cap : Nat
  buffered : Nat
  sent : Nat
  received : Nat
deriving DecidableEq, Repr

/-- A fresh channel: `make(chan T, cap)`; plain `make(chan T)` has
`cap = 0`. -/
def mkChan (c : Nat) : GoChan :=
  { cap := c, buffered := 0, sent := 0, received := 0 }

/-- Operational semantics of Go channel operations on the abstract state:
a send completes into free buffer space; a receive completes from a
nonempty buffer; on an unbuffered channel a send and a receive complete
together as a rendezvous.  A send with a full (or no) buffer and no waiting
receiver has no step — the sending goroutine blocks. -/
inductive ChanStep : GoChan → GoChan → Prop where
  | send (ch : GoChan) (h : ch.buffered < ch.cap) :
      ChanStep ch { cap := ch.cap, buffered := ch.buffered + 1,
                    sent := ch.sent + 1, received := ch.received }
  | recv (ch : GoChan) (h : 0 < ch.buffered) :
      ChanStep ch { cap := ch.cap, buffered := ch.buffered - 1,
                    sent := ch.sent, received := ch.received + 1 }
  | rendezvous (ch : GoChan) (h : ch.cap = 0) :
      ChanStep ch { cap := ch.cap, buffered := ch.buffered,
                    sent := ch.sent + 1, received := ch.received + 1 }

/-- Reflexive-transitive closure of `ChanStep`: the channel states an
execution can reach. -/
inductive ChanReach : GoChan → GoChan → Prop where
  | refl (ch : GoChan) : ChanReach ch ch
  | tail {a b c : GoChan} : ChanReach a b → ChanStep b c → ChanReach a c

/-- Run configuration, translated from the Go `MapReduce` struct. -/
structure MapReduce where
  Files : List String
  NMap : Nat
  NReduce : Nat
deriving DecidableEq, Repr

/-- Coordinator state, translated from the Go `Master` struct: the two
task channels are FIFO queues of still-leasable indices, `done` is the
completion-gate channel. -/
structure Master where
  mr : MapReduce
  mapTasks : List Nat
  reduceTasks : List Nat
  done : GoChan
deriving DecidableEq, Repr

/-- Model of `NewMaster` (`src/Code.go` lines 167-177): buffered channels
pre-filled with `0 … NMap-1` and `0 … NReduce-1` in FIFO order, and the
unbuffered `done` channel from `make(chan bool)`. -/
def NewMaster (mr : MapReduce) : Master :=
  { mr := mr, mapTasks := List.range mr.NMap,
    reduceTasks := List.range mr.NReduce, done := mkChan 0 }

/-- Model of `Master.AssignMapTask` (`src/Code.go` lines 180-188): a
`select` with a `default` arm — receive the next queued index when one is
buffered, else return the `"no more map tasks"` error immediately; it never
blocks. -/
def AssignMapTask (m : Master) : Except String Nat × Master :=
  match m.mapTasks with
  | task :: rest => (Except.ok task, { m with mapTasks := rest })
  | [] => (Except.error "no more map tasks", m)

/-- Model of `Master.AssignReduceTask` (`src/Code.go` lines 191-199),
symmetric to `AssignMapTask` on the reduce pool. -/
def AssignReduceTask (m : Master) : Except String Nat × Master :=
  match m.reduceTasks with
  | task :: rest => (Except.ok task, { m with reduceTasks := rest })
  | [] => (Except.error "no more reduce tasks", m)

/-- Results of `k` successive `AssignMapTask` calls, with the master state
they leave behind. -/
def assignMapN (m : Master) : Nat → List (Except String Nat) × Master
  | 0 => ([], m)
  | k + 1 =>
      ((AssignMapTask m).1 :: (assignMapN (AssignMapTask m).2 k).1,
       (assignMapN (AssignMapTask m).2 k).2)

/-- Results of `k` successive `AssignReduceTask` calls. -/
def assignReduceN (m : Master) : Nat → List (Except String Nat) × Master
  | 0 => ([], m)
  | k + 1 =>
      ((AssignReduceTask m).1 :: (assignReduceN (AssignReduceTask m).2 k).1,
       (assignReduceN (AssignReduceTask m).2 k).2)

/-- Outcome of one map-task goroutine as `main` observes it. -/
inductive MapOutcome where
  | panicked : MapOutcome
  | failed : MapOutcome
  | ok : GoMap → GoMap → MapOutcome
deriving DecidableEq, Repr

/-- One `MapTask` goroutine (`src/Code.go` lines 52-98) on its partition:
an unopenable partition (`none`) reports the `os.Open` error on the results
channel (`failed`); a malformed line panics the goroutine (`panicked`);
otherwise the task builds and writes its two tallies. -/
def runMapTask (p : Option (List String)) : MapOutcome :=
  match p with
  | none => MapOutcome.failed
  | some lines =>
    match mapTaskTables lines with
    | GoResult.panicked => MapOutcome.panicked
    | GoResult.ok (d, t) => MapOutcome.ok d t

/-- Did the goroutine panic? -/
def isPanicked : MapOutcome → Bool
  | MapOutcome.panicked => true
  | _ => false

/-- Did the task report an error on the results channel? -/
def isFailed : MapOutcome → Bool
  | MapOutcome.failed => true
  | _ => false

/-- Tallies of a successful task (dummy for the others; only read on the
all-successful path). -/
def outcomeTables : MapOutcome → GoMap × GoMap
  | MapOutcome.ok d t => (d, t)
  | _ => ([], [])

/-- Outcome of the whole run `main` drives. -/
inductive RunOutcome where
  | crashed : RunOutcome
  | mapFatal : RunOutcome
  | reduceFatal : RunOutcome
  | completed : List String → RunOutcome
deriving DecidableEq, Repr

/-- The run `main` drives (`src/Code.go` lines 243-275): run every map
task and wait at the barrier.  An unrecovered goroutine panic kills the
whole process (`crashed`) before any reduce work; otherwise a reported map
error hits `log.Fatal` (`mapFatal`), likewise before any reduce work; only
when every map task succeeded does the reduce phase run, reading exactly
the intermediate files the map tasks wrote, and only its success produces a
report. -/
def runMain (partitions : List (Option (List String))) : RunOutcome :=
  if (partitions.map runMapTask).any isPanicked then RunOutcome.crashed
  else if (partitions.map runMapTask).any isFailed then RunOutcome.mapFatal
  else
    match ReduceTaskRun (((partitions.map runMapTask).map outcomeTables).map
        (fun p => (some (serializeTable p.1), some (serializeTable p.2)))) with
    | ReduceOutcome.ioError => RunOutcome.reduceFatal
    | ReduceOutcome.ok report => RunOutcome.completed report

/-- Tokens produced by `wordsAux` are nonempty and whitespace-free, given
the same holds of the accumulator. -/
theorem wordsAux_sound (cs : List Char) : ∀ acc, (∀ c ∈ acc, c.isWhitespace = false) →
    ∀ w ∈ wordsAux cs acc, w ≠ [] ∧ ∀ c ∈ w, c.isWhitespace = false := by
  induction cs with
  | nil =>
    intro acc hacc w hw
    simp only [wordsAux] at hw
    split at hw
    · simp at hw
    · rename_i hne
      simp only [List.mem_singleton] at hw
      subst hw
      refine ⟨?_, fun c hc => hacc c (List.mem_reverse.mp hc)⟩
      simp only [ne_eq, List.reverse_eq_nil_iff]
      intro h
      subst h
      simp at hne
  | cons c rest ih =>
    intro acc hacc w hw
    simp only [wordsAux] at hw
    split at hw
    · split at hw
      · exact ih [] (by simp) w hw
      · rename_i hne
        rcases List.mem_cons.mp hw with h | h
        · subst h
          refine ⟨?_, fun a ha => hacc a (List.mem_reverse.mp ha)⟩
          simp only [ne_eq, List.reverse_eq_nil_iff]
          intro h
          subst h
          simp at hne
        · exact ih [] (by simp) w h
    · rename_i hcw
      refine ih (c :: acc) ?_ w hw
      intro a ha
      rcases List.mem_cons.mp ha with h | h
      · subst h
        simpa using hcw
      · exact hacc a h

/-- Every token returned by `words` is nonempty and contains no
whitespace. -/
theorem words_sound (cs : List Char) :
    ∀ w ∈ words cs, w ≠ [] ∧ ∀ c ∈ w, c.isWhitespace = false :=
  wordsAux_sound cs [] (by simp)

/-- Scanning a whitespace-free prefix just accumulates it (reversed). -/
theorem wordsAux_nonws (t : List Char) (ht : ∀ c ∈ t, c.isWhitespace = false) :
    ∀ rest acc, wordsAux (t ++ rest) acc = wordsAux rest (t.reverse ++ acc) := by
  induction t with
  | nil => intro rest acc; simp
  | cons c t' ih =>
    intro rest acc
    have hc : c.isWhitespace = false := ht c (by simp)
    simp only [List.cons_append, wordsAux, hc]
    rw [if_neg (by simp [hc])]
    rw [List.append_eq, ih (fun a ha => ht a (by simp [ha])) rest (c :: acc)]
    simp

/-- A single nonempty whitespace-free token splits into itself alone. -/
theorem words_token (t : List Char) (ht : t ≠ [])
    (htc : ∀ c ∈ t, c.isWhitespace = false) : words t = [t] := by
  unfold words
  conv_lhs => rw [show t = t ++ ([] : List Char) by simp]
  rw [wordsAux_nonws t htc [] []]
  simp [wordsAux, ht]

/-- Two tokens joined by a single space split into exactly those two
tokens. -/
theorem words_token_pair (v x : List Char) (hv : v ≠ [])
    (hvc : ∀ c ∈ v, c.isWhitespace = false) (hx : x ≠ [])
    (hxc : ∀ c ∈ x, c.isWhitespace = false) :
    words (v ++ ' ' :: x) = [v, x] := by
  unfold words
  rw [wordsAux_nonws v hvc]
  simp only [List.append_nil, wordsAux]
  rw [if_pos (by decide)]
  rw [if_neg (by simp [hv])]
  rw [show wordsAux x [] = words x from rfl, words_token x hx hxc]
  simp

/-- Every field produced by `fields` is a nonempty, whitespace-free
token. -/
theorem fields_sound (s : String) :
    ∀ f ∈ fields s, f.data ≠ [] ∧ ∀ c ∈ f.data, c.isWhitespace = false := by
  intro f hf
  simp only [fields, List.mem_map] at hf
  obtain ⟨w, hw, rfl⟩ := hf
  exact words_sound s.data w hw

/-- C1 (counterexample): on the four-token line `"p1 John Doe 30"` the
record parser performs an index-out-of-range access (a Go runtime panic)
instead of failing with a `MalformedRecordError`; the Go `ParseEHR` indexes
`fields[0]`…`fields[5]` with no length validation, and no
`MalformedRecordError` exists anywhere in the program. -/
theorem parseEHR_four_token_line_oob :
    ParseEHR "p1 John Doe 30" = GoResult.panicked := rfl

/-- C1 (amended): for every input line that splits into fewer than six
whitespace-separated tokens, `ParseEHR` hits an index-out-of-range runtime
panic (length is never validated, and no `MalformedRecordError` is ever
produced — the function has no error outcome at all). -/
theorem parseEHR_short_line_panics (line : String)
    (h : (fields line).length < 6) : ParseEHR line = GoResult.panicked := by
  unfold ParseEHR
  split
  · rename_i f0 f1 f2 f3 f4 f5 rest heq
    rw [heq] at h
    simp at h
    omega
  · rfl

/-- Witness for `parseEHR_short_line_panics` at the concrete line
`"p1 John"`. -/
theorem parseEHR_short_line_panics_witness :
    (fields "p1 John").length < 6 ∧ ParseEHR "p1 John" = GoResult.panicked :=
  ⟨by decide, parseEHR_short_line_panics "p1 John" (by decide)⟩

/-- Reading after `m[k] += c`. -/
theorem mapGet_addCount (m : GoMap) (k : String) (c : Int) (x : String) :
    mapGet (addCount m k c) x = mapGet m x + (if k = x then c else 0) := by
  induction m with
  | nil =>
    simp only [addCount, mapGet]
    split <;> simp_all
  | cons p rest ih =>
    obtain ⟨k', v⟩ := p
    simp only [addCount]
    by_cases h : k' = k
    · subst h
      simp only [if_pos rfl, mapGet]
      by_cases hx : k' = x
      · simp [hx]
      · simp [hx]
    · rw [if_neg h]
      simp only [mapGet]
      by_cases hx : k' = x
      · subst hx
        rw [if_pos rfl, if_pos rfl, if_neg (fun hh => h hh.symm)]
        omega
      · rw [if_neg hx, if_neg hx]
        exact ih

/-- Unfolding lemma: keys of the empty map. -/
theorem keys_nil : keys [] = [] := rfl

/-- Unfolding lemma: keys of a cons cell. -/
theorem keys_cons (k : String) (v : Int) (m : GoMap) :
    keys ((k, v) :: m) = k :: keys m := rfl

/-- Keys of an appended map. -/
theorem keys_append (m m' : GoMap) : keys (m ++ m') = keys m ++ keys m' := by
  simp [keys]

/-- Key membership after `m[k] += c`. -/
theorem keys_addCount (m : GoMap) (k : String) (c : Int) (x : String) :
    x ∈ keys (addCount m k c) ↔ x ∈ keys m ∨ x = k := by
  induction m with
  | nil => simp [addCount, keys_cons, keys_nil]
  | cons p rest ih =>
    obtain ⟨k', v⟩ := p
    simp only [addCount]
    by_cases h : k' = k
    · rw [if_pos h]
      subst h
      simp only [keys_cons, List.mem_cons]
      tauto
    · rw [if_neg h]
      simp only [keys_cons, List.mem_cons, ih]
      constructor
      · rintro (hh | hh | hh) <;> tauto
      · rintro ((hh | hh) | hh) <;> tauto

/-- The operation `m[k] += c` preserves key distinctness. -/
theorem keysNodup_addCount (m : GoMap) (k : String) (c : Int)
    (h : keysNodup m) : keysNodup (addCount m k c) := by
  induction m with
  | nil => simp [addCount, keysNodup, keys]
  | cons p rest ih =>
    obtain ⟨k', v⟩ := p
    simp only [addCount]
    by_cases hk : k' = k
    · subst hk
      simpa [keysNodup, keys] using h
    · rw [if_neg hk]
      simp only [keysNodup, keys, List.map_cons, List.nodup_cons] at h ⊢
      refine ⟨?_, ih h.2⟩
      intro hmem
      rcases (keys_addCount rest k c k').mp hmem with hm | hm
      · exact h.1 hm
      · exact hk hm

/-- The operation `m[k] += c` preserves key tokenhood when `k` is a
token. -/
theorem tokenKeys_addCount (m : GoMap) (k : String) (c : Int)
    (hm : tokenKeys m) (hk : isToken k) : tokenKeys (addCount m k c) := by
  induction m with
  | nil =>
    intro p hp
    simp only [addCount, List.mem_singleton] at hp
    subst hp
    exact hk
  | cons q rest ih =>
    obtain ⟨k', v⟩ := q
    intro p hp
    simp only [addCount] at hp
    by_cases h : k' = k
    · rw [if_pos h] at hp
      rcases List.mem_cons.mp hp with h' | h'
      · subst h'
        exact hm (k', v) (by simp)
      · exact hm p (by simp [h'])
    · rw [if_neg h] at hp
      rcases List.mem_cons.mp hp with h' | h'
      · subst h'
        exact hm (k', v) (by simp)
      · exact ih (fun q hq => hm q (by simp [hq])) p h'

/-- Reading after accumulating a whole table. -/
theorem mapGet_addAll (d : GoMap) :
    ∀ acc x, mapGet (addAll acc d) x = mapGet acc x + entrySum d x := by
  induction d with
  | nil => intro acc x; simp [addAll, entrySum]
  | cons p rest ih =>
    intro acc x
    simp only [addAll, entrySum]
    rw [ih (addCount acc p.1 p.2) x, mapGet_addCount]
    by_cases h : p.1 = x
    · rw [if_pos h]
      omega
    · rw [if_neg h]
      omega

/-- No entry with key `x` means no contribution. -/
theorem entrySum_zero_of_not_mem (d : GoMap) (x : String)
    (h : x ∉ keys d) : entrySum d x = 0 := by
  induction d with
  | nil => rfl
  | cons p rest ih =>
    simp only [keys, List.map_cons, List.mem_cons, not_or] at h
    simp only [entrySum]
    rw [if_neg (fun hh => h.1 hh.symm), ih (by simpa [keys] using h.2)]
    omega

/-- With distinct keys, the contribution for `x` is exactly the stored
count. -/
theorem entrySum_eq_mapGet (d : GoMap) (h : keysNodup d) (x : String) :
    entrySum d x = mapGet d x := by
  induction d with
  | nil => rfl
  | cons p rest ih =>
    obtain ⟨k, v⟩ := p
    have hn : k ∉ keys rest ∧ keysNodup rest := by
      simpa [keysNodup, keys] using h
    simp only [entrySum, mapGet]
    by_cases hx : k = x
    · subst hx
      rw [if_pos rfl, if_pos rfl, entrySum_zero_of_not_mem rest k hn.1]
      omega
    · rw [if_neg hx, if_neg hx, ih hn.2]
      omega

/-- Adding a key absent from the accumulator appends a fresh entry. -/
theorem addCount_append (acc : GoMap) (k : String) (c : Int)
    (h : k ∉ keys acc) : addCount acc k c = acc ++ [(k, c)] := by
  induction acc with
  | nil => simp [addCount]
  | cons q rest ih =>
    obtain ⟨k', v⟩ := q
    simp only [keys, List.map_cons, List.mem_cons, not_or] at h
    simp only [addCount]
    rw [if_neg (fun hh => h.1 (hh.symm))]
    rw [ih (by simpa [keys] using h.2)]
    simp

/-- Replaying a distinct-keyed table into a disjoint accumulator appends
it verbatim. -/
theorem addAll_disjoint (d : GoMap) :
    ∀ acc, keysNodup d → (∀ k ∈ keys d, k ∉ keys acc) →
    addAll acc d = acc ++ d := by
  induction d with
  | nil => intro acc _ _; simp [addAll]
  | cons p rest ih =>
    intro acc hnd hdisj
    obtain ⟨k, v⟩ := p
    have hn : k ∉ keys rest ∧ keysNodup rest := by
      simpa [keysNodup, keys] using hnd
    simp only [addAll]
    rw [addCount_append acc k v (hdisj k (by simp [keys]))]
    rw [ih (acc ++ [(k, v)]) hn.2 ?_]
    · simp
    · intro x hx
      rw [keys_append, keys_cons, keys_nil]
      simp only [List.mem_append, List.mem_singleton, not_or]
      refine ⟨fun hh => hdisj x (by simp [keys_cons, hx]) hh, ?_⟩
      intro hh
      subst hh
      exact hn.1 hx

/-- The printer `natDigitsAux` ignores fuel once there is enough of it. -/
theorem natDigitsAux_congr : ∀ f f' n : Nat, n < f → n < f' →
    natDigitsAux f n = natDigitsAux f' n := by
  intro f
  induction f with
  | zero => intro f' n h; omega
  | succ g ih =>
    intro f' n h h'
    match f', h' with
    | g' + 1, h' =>
      simp only [natDigitsAux]
      by_cases h10 : n < 10
      · simp [h10]
      · rw [if_neg h10, if_neg h10]
        have hd : n / 10 < n := Nat.div_lt_self (by omega) (by omega)
        rw [ih g' (n / 10) (by omega) (by omega)]

/-- Unfolding equation for `natDigits`. -/
theorem natDigits_eq (n : Nat) :
    natDigits n = if n < 10 then [digitChar n]
                  else natDigits (n / 10) ++ [digitChar (n % 10)] := by
  show natDigitsAux (n + 1) n = _
  simp only [natDigitsAux]
  by_cases h10 : n < 10
  · simp [h10]
  · rw [if_neg h10, if_neg h10]
    have hd : n / 10 < n := Nat.div_lt_self (by omega) (by omega)
    rw [natDigitsAux_congr n (n / 10 + 1) (n / 10) (by omega) (by omega)]
    rfl

/-- A `digitChar` is never whitespace. -/
theorem digitChar_not_ws (d : Nat) : (digitChar d).isWhitespace = false := by
  unfold digitChar
  split <;> decide

/-- A `digitChar` is always a decimal digit character. -/
theorem digitChar_isDigit (d : Nat) : (digitChar d).isDigit = true := by
  unfold digitChar
  split <;> decide

/-- Code-point value of `digitChar` for genuine digits. -/
theorem digitChar_val (d : Nat) (h : d < 10) : (digitChar d).toNat - 48 = d := by
  interval_cases d <;> rfl

/-- Every character printed for a `Nat` is some `digitChar`. -/
theorem natDigits_digitChar (n : Nat) :
    ∀ c ∈ natDigits n, ∃ d, c = digitChar d := by
  induction n using Nat.strong_induction_on with
  | _ n ih =>
    rw [natDigits_eq]
    by_cases h10 : n < 10
    · rw [if_pos h10]
      intro c hc
      simp only [List.mem_singleton] at hc
      exact ⟨n, hc⟩
    · rw [if_neg h10]
      intro c hc
      rcases List.mem_append.mp hc with h' | h'
      · exact ih (n / 10) (Nat.div_lt_self (by omega) (by omega)) c h'
      · simp only [List.mem_singleton] at h'
        exact ⟨n % 10, h'⟩

/-- The printed digits of a `Nat` are nonempty. -/
theorem natDigits_ne_nil (n : Nat) : natDigits n ≠ [] := by
  rw [natDigits_eq]
  split <;> simp

/-- Peeling the last digit off `digitsVal`. -/
theorem digitsVal_append (ds : List Char) (c : Char) :
    digitsVal (ds ++ [c]) = digitsVal ds * 10 + (c.toNat - 48) := by
  simp [digitsVal, List.foldl_append]

/-- Printing then reading a `Nat` gives it back. -/
theorem digitsVal_natDigits (n : Nat) : digitsVal (natDigits n) = n := by
  induction n using Nat.strong_induction_on with
  | _ n ih =>
    rw [natDigits_eq]
    by_cases h10 : n < 10
    · rw [if_pos h10]
      show 0 * 10 + ((digitChar n).toNat - 48) = n
      rw [digitChar_val n h10]
      omega
    · rw [if_neg h10, digitsVal_append]
      rw [ih (n / 10) (Nat.div_lt_self (by omega) (by omega))]
      rw [digitChar_val (n % 10) (Nat.mod_lt n (by omega))]
      omega

/-- A list all of whose elements satisfy `p` is its own `takeWhile`. -/
theorem takeWhile_all {α : Type} (p : α → Bool) :
    ∀ l : List α, (∀ a ∈ l, p a = true) → l.takeWhile p = l := by
  intro l h
  induction l with
  | nil => rfl
  | cons a rest ih =>
    rw [List.takeWhile_cons, if_pos (h a (by simp))]
    rw [ih (fun b hb => h b (by simp [hb]))]

/-- Scanning the printed digits of a `Nat` succeeds with its value. -/
theorem scanIntCore_natDigits (n : Nat) :
    scanIntCore (natDigits n) = some (n : Int) := by
  unfold scanIntCore
  have hall : ∀ c ∈ natDigits n, c.isDigit = true := by
    intro c hc
    obtain ⟨d, rfl⟩ := natDigits_digitChar n c hc
    exact digitChar_isDigit d
  rw [takeWhile_all Char.isDigit (natDigits n) hall]
  rw [if_neg (by simp [List.isEmpty_iff, natDigits_ne_nil n])]
  rw [digitsVal_natDigits n]

/-- Printing then scanning a Go `int` gives it back. -/
theorem scanIntTok_intRepr (c : Int) : scanIntTok (intRepr c) = some c := by
  unfold intRepr
  by_cases hneg : c < 0
  · rw [if_pos hneg]
    have hstep : scanIntTok ('-' :: natDigits c.natAbs)
        = (scanIntCore (natDigits c.natAbs)).map (fun n => -n) := by
      show (if '-' = '-' then (scanIntCore (natDigits c.natAbs)).map (fun n => -n)
            else scanIntCore ('-' :: natDigits c.natAbs))
          = (scanIntCore (natDigits c.natAbs)).map (fun n => -n)
      rw [if_pos rfl]
    rw [hstep, scanIntCore_natDigits]
    show some (-((c.natAbs : Nat) : Int)) = some c
    congr 1
    omega
  · rw [if_neg hneg]
    obtain ⟨d, ds, hds⟩ : ∃ d ds, natDigits c.natAbs = d :: ds := by
      cases hd : natDigits c.natAbs with
      | nil => exact absurd hd (natDigits_ne_nil _)
      | cons d ds => exact ⟨d, ds, rfl⟩
    have hd_ne : d ≠ '-' := by
      intro hd
      have hdig : d.isDigit = true := by
        obtain ⟨e, he⟩ := natDigits_digitChar c.natAbs d (by rw [hds]; simp)
        rw [he]
        exact digitChar_isDigit e
      rw [hd] at hdig
      simp at hdig
    have hstep : scanIntTok (d :: ds) = scanIntCore (d :: ds) := by
      show (if d = '-' then (scanIntCore ds).map (fun n => -n)
            else scanIntCore (d :: ds)) = scanIntCore (d :: ds)
      rw [if_neg hd_ne]
    rw [hds, hstep, ← hds, scanIntCore_natDigits]
    congr 1
    omega

/-- The printed form of a Go `int` is a nonempty whitespace-free token. -/
theorem intRepr_token (c : Int) :
    intRepr c ≠ [] ∧ ∀ a ∈ intRepr c, a.isWhitespace = false := by
  unfold intRepr
  by_cases hneg : c < 0
  · rw [if_pos hneg]
    refine ⟨by simp, ?_⟩
    intro a ha
    rcases List.mem_cons.mp ha with h | h
    · subst h; rfl
    · obtain ⟨d, rfl⟩ := natDigits_digitChar c.natAbs a h
      exact digitChar_not_ws d
  · rw [if_neg hneg]
    refine ⟨natDigits_ne_nil _, ?_⟩
    intro a ha
    obtain ⟨d, rfl⟩ := natDigits_digitChar c.natAbs a ha
    exact digitChar_not_ws d

/-- Structure eta for strings. -/
theorem stringMk_data (s : String) : String.mk s.data = s := rfl

/-- Scanning back one serialized line recovers the entry exactly, provided
the value is a token. -/
theorem sscanf_serializeLine (v : String) (c : Int) (hv : isToken v) :
    sscanfValueCount (serializeLine v c) = (v, c) := by
  unfold sscanfValueCount serializeLine
  show (match words (v.data ++ ' ' :: intRepr c) with
    | w :: x :: _ => (String.mk w, (scanIntTok x).getD 0)
    | [w] => (String.mk w, 0)
    | [] => ("", 0)) = (v, c)
  rw [words_token_pair v.data (intRepr c) hv.1 hv.2 (intRepr_token c).1
    (intRepr_token c).2]
  show (String.mk v.data, (scanIntTok (intRepr c)).getD 0) = (v, c)
  rw [scanIntTok_intRepr, stringMk_data]
  rfl

/-- Reading back a whole serialized table replays its entries into the
accumulator, provided its keys are tokens. -/
theorem readLines_serializeTable (d : GoMap) (hd : tokenKeys d) :
    ∀ acc, readLines (serializeTable d) acc = addAll acc d := by
  induction d with
  | nil => intro acc; rfl
  | cons p rest ih =>
    intro acc
    show readLines (serializeLine p.1 p.2 :: serializeTable rest) acc = _
    simp only [readLines]
    rw [sscanf_serializeLine p.1 p.2 (hd p (by simp))]
    exact ih (fun q hq => hd q (by simp [hq])) (addCount acc p.1 p.2)

/-- The loop `readLines` preserves key distinctness of the accumulator. -/
theorem keysNodup_readLines (lines : List String) :
    ∀ acc, keysNodup acc → keysNodup (readLines lines acc) := by
  induction lines with
  | nil => intro acc h; exact h
  | cons line rest ih =>
    intro acc h
    exact ih _ (keysNodup_addCount _ _ _ h)

/-- The diagnosis and treatment of a successfully parsed record are fields
of the line, hence tokens. -/
theorem parseEHR_fields_token (line : String) (e : EHR)
    (h : ParseEHR line = GoResult.ok e) :
    isToken e.Diagnosis ∧ isToken e.Treatment := by
  unfold ParseEHR at h
  split at h
  · rename_i f0 f1 f2 f3 f4 f5 rest heq
    cases h
    constructor
    · exact fields_sound line f4 (by rw [heq]; simp)
    · exact fields_sound line f5 (by rw [heq]; simp)
  · cases h

/-- A panicked fold stays panicked. -/
theorem foldl_mapStep_panicked (lines : List String) :
    lines.foldl mapStep GoResult.panicked = GoResult.panicked := by
  induction lines with
  | nil => rfl
  | cons line rest ih => exact ih

/-- Invariant: the tallies a map task builds have distinct, token keys. -/
theorem foldl_mapStep_good (lines : List String) :
    ∀ st, (∀ d0 t0, st = GoResult.ok (d0, t0) → goodMap d0 ∧ goodMap t0) →
    ∀ d t, lines.foldl mapStep st = GoResult.ok (d, t) →
    goodMap d ∧ goodMap t := by
  induction lines with
  | nil =>
    intro st hst d t h
    simp only [List.foldl_nil] at h
    exact hst d t h
  | cons line rest ih =>
    intro st hst d t h
    simp only [List.foldl_cons] at h
    refine ih (mapStep st line) ?_ d t h
    intro d0 t0 hstep
    cases st with
    | panicked => simp [mapStep] at hstep
    | ok p =>
      obtain ⟨d1, t1⟩ := p
      have hg := hst d1 t1 rfl
      simp only [mapStep] at hstep
      cases hp : ParseEHR line with
      | panicked => rw [hp] at hstep; cases hstep
      | ok e =>
        rw [hp] at hstep
        cases hstep
        have htok := parseEHR_fields_token line e hp
        exact ⟨⟨keysNodup_addCount _ _ _ hg.1.1,
                tokenKeys_addCount _ _ _ hg.1.2 htok.1⟩,
               ⟨keysNodup_addCount _ _ _ hg.2.1,
                tokenKeys_addCount _ _ _ hg.2.2 htok.2⟩⟩

/-- The tallies of a successful map task have distinct, token keys. -/
theorem mapTaskTables_good (lines : List String) (d t : GoMap)
    (h : mapTaskTables lines = GoResult.ok (d, t)) : goodMap d ∧ goodMap t := by
  refine foldl_mapStep_good lines (GoResult.ok ([], [])) ?_ d t h
  intro d0 t0 h0
  cases h0
  exact ⟨⟨List.nodup_nil, fun p hp => absurd hp (List.not_mem_nil p)⟩,
         ⟨List.nodup_nil, fun p hp => absurd hp (List.not_mem_nil p)⟩⟩

/-- Reading a serialized good table into an empty accumulator reproduces
the table verbatim. -/
theorem readLines_serializeTable_nil (d : GoMap) (hd : goodMap d) :
    readLines (serializeTable d) [] = d := by
  rw [readLines_serializeTable d hd.2 []]
  rw [addAll_disjoint d [] hd.1 (by intro k _ hk; exact absurd hk (List.not_mem_nil k))]
  rfl

/-- Reading of the empty map. -/
theorem mapGet_nil (k : String) : mapGet [] k = 0 := rfl

/-- Reduce-side accumulation of serialized good tables sums their counts
pointwise. -/
theorem readPairs_serialized_mapGet (tables : List (GoMap × GoMap))
    (h : ∀ p ∈ tables, goodMap p.1 ∧ goodMap p.2) :
    ∀ dAcc tAcc dFin tFin,
      readPairs (tables.map fun p =>
          (some (serializeTable p.1), some (serializeTable p.2))) dAcc tAcc
        = some (dFin, tFin) →
      ∀ V, mapGet dFin V = mapGet dAcc V + (tables.map fun p => mapGet p.1 V).sum ∧
           mapGet tFin V = mapGet tAcc V + (tables.map fun p => mapGet p.2 V).sum := by
  induction tables with
  | nil =>
    intro dAcc tAcc dFin tFin hr V
    simp only [List.map_nil, readPairs, Option.some.injEq, Prod.mk.injEq] at hr
    obtain ⟨rfl, rfl⟩ := hr
    simp
  | cons p rest ih =>
    intro dAcc tAcc dFin tFin hr V
    simp only [List.map_cons] at hr
    have hr' : readPairs (rest.map fun p =>
        (some (serializeTable p.1), some (serializeTable p.2)))
        (readLines (serializeTable p.1) dAcc)
        (readLines (serializeTable p.2) tAcc) = some (dFin, tFin) := hr
    have hp := h p (by simp)
    have hrec := ih (fun q hq => h q (by simp [hq])) _ _ dFin tFin hr' V
    rw [readLines_serializeTable p.1 hp.1.2, readLines_serializeTable p.2 hp.2.2,
        mapGet_addAll, mapGet_addAll,
        entrySum_eq_mapGet p.1 hp.1.1, entrySum_eq_mapGet p.2 hp.2.1] at hrec
    simp only [List.map_cons, List.sum_cons]
    omega

/-- The loop `readPairs` keeps key distinctness of both accumulators. -/
theorem readPairs_nodup (files : List (Option (List String) × Option (List String))) :
    ∀ dAcc tAcc d t, keysNodup dAcc → keysNodup tAcc →
    readPairs files dAcc tAcc = some (d, t) → keysNodup d ∧ keysNodup t := by
  induction files with
  | nil =>
    intro dAcc tAcc d t h1 h2 h
    simp only [readPairs, Option.some.injEq, Prod.mk.injEq] at h
    obtain ⟨rfl, rfl⟩ := h
    exact ⟨h1, h2⟩
  | cons f rest ih =>
    intro dAcc tAcc d t h1 h2 h
    obtain ⟨df, tf⟩ := f
    cases df with
    | none => simp [readPairs] at h
    | some dLines =>
      cases tf with
      | none => simp [readPairs] at h
      | some tLines =>
        exact ih _ _ d t (keysNodup_readLines _ _ h1)
          (keysNodup_readLines _ _ h2) h

/-- C8: for every input line with at least six whitespace-separated
tokens, parsing succeeds and is positional: token 0 is the patient id,
tokens 1 and 2 joined by a space form the name, token 3 the age, token 4
the diagnosis and token 5 the treatment.  Determinism is immediate since
`ParseEHR` is a pure function of the line. -/
theorem parseEHR_positional_total (line f0 f1 f2 f3 f4 f5 : String)
    (rest : List String)
    (h : fields line = f0 :: f1 :: f2 :: f3 :: f4 :: f5 :: rest) :
    ParseEHR line = GoResult.ok { PatientID := f0, Name := f1 ++ " " ++ f2,
                                  Age := f3, Diagnosis := f4, Treatment := f5 } := by
  unfold ParseEHR
  rw [h]

/-- Witness for `parseEHR_positional_total` at a concrete six-token
line. -/
theorem parseEHR_positional_total_witness :
    fields "p1 John Doe 30 flu rest" = ["p1", "John", "Doe", "30", "flu", "rest"] ∧
    ParseEHR "p1 John Doe 30 flu rest" =
      GoResult.ok { PatientID := "p1", Name := "John Doe", Age := "30",
                    Diagnosis := "flu", Treatment := "rest" } :=
  ⟨rfl, parseEHR_positional_total "p1 John Doe 30 flu rest"
    "p1" "John" "Doe" "30" "flu" "rest" [] rfl⟩

/-- C4: for every category value `V`, the count for `V` accumulated by the
reduce task from the serialized intermediate files equals the sum over all
map tasks of that map task's in-memory count for `V` — for runs in which
every intermediate file is present (`some …`) and is exactly what its map
task wrote (global aggregation correctness), on the diagnosis and the
treatment side alike. -/
theorem global_aggregation (tables : List (GoMap × GoMap))
    (h : ∀ p ∈ tables, ∃ lines, mapTaskTables lines = GoResult.ok p)
    (dFin tFin : GoMap)
    (hrun : readPairs (tables.map fun p =>
        (some (serializeTable p.1), some (serializeTable p.2))) [] []
        = some (dFin, tFin)) (V : String) :
    mapGet dFin V = (tables.map fun p => mapGet p.1 V).sum ∧
    mapGet tFin V = (tables.map fun p => mapGet p.2 V).sum := by
  have hg : ∀ p ∈ tables, goodMap p.1 ∧ goodMap p.2 := by
    intro p hp
    obtain ⟨lines, hl⟩ := h p hp
    exact mapTaskTables_good lines p.1 p.2 hl
  have hrec := readPairs_serialized_mapGet tables hg [] [] dFin tFin hrun V
  simpa [mapGet_nil] using hrec

/-- Witness for `global_aggregation` on the spec's end-to-end scenario:
two partitions with diagnoses flu,flu,cold and flu,cold,cold; the final
counts are flu 3 and cold 3, and the treatment counts add up as well. -/
theorem global_aggregation_witness :
    mapGet [("flu", 3), ("cold", 3)] "flu"
      = ([([("flu", 2), ("cold", 1)], [("rest", 3)]),
          ([("flu", 1), ("cold", 2)], [("rest", 3)])].map
            fun p => mapGet p.1 "flu").sum ∧
    mapGet [("rest", 6)] "flu"
      = ([([("flu", 2), ("cold", 1)], [("rest", 3)]),
          ([("flu", 1), ("cold", 2)], [("rest", 3)])].map
            fun p => mapGet p.2 "flu").sum :=
  global_aggregation
    [([("flu", 2), ("cold", 1)], [("rest", 3)]),
     ([("flu", 1), ("cold", 2)], [("rest", 3)])]
    (by
      intro p hp
      simp only [List.mem_cons, List.not_mem_nil, or_false] at hp
      rcases hp with rfl | rfl
      · exact ⟨["a John Doe 30 flu rest", "b John Doe 30 flu rest",
                "c John Doe 30 cold rest"], rfl⟩
      · exact ⟨["d Jane Roe 40 flu rest", "e Jane Roe 40 cold rest",
                "f Jane Roe 40 cold rest"], rfl⟩)
    [("flu", 3), ("cold", 3)] [("rest", 6)] rfl "flu"

/-- C5: for every map task, the pairs written to each intermediate file
are exactly the pairs a reduce task reads back from it — as sets (the first
two conjuncts) and in fact as lists (the last two): write-then-read over
the `value count` line format is the identity on the task's in-memory
tallies. -/
theorem intermediate_roundtrip (lines : List String) (d t : GoMap)
    (h : mapTaskTables lines = GoResult.ok (d, t)) :
    (∀ p : String × Int, p ∈ readLines (serializeTable d) [] ↔ p ∈ d) ∧
    (∀ p : String × Int, p ∈ readLines (serializeTable t) [] ↔ p ∈ t) ∧
    readLines (serializeTable d) [] = d ∧
    readLines (serializeTable t) [] = t := by
  have hg := mapTaskTables_good lines d t h
  have hd := readLines_serializeTable_nil d hg.1
  have ht := readLines_serializeTable_nil t hg.2
  exact ⟨fun p => by rw [hd], fun p => by rw [ht], hd, ht⟩

/-- Witness for `intermediate_roundtrip` on a concrete partition. -/
theorem intermediate_roundtrip_witness :
    readLines (serializeTable [("flu", 2), ("cold", 1)]) []
      = [("flu", 2), ("cold", 1)] ∧
    readLines (serializeTable [("rest", 3)]) [] = [("rest", 3)] :=
  ⟨(intermediate_roundtrip
      ["a John Doe 30 flu rest", "b John Doe 30 flu rest",
       "c John Doe 30 cold rest"]
      [("flu", 2), ("cold", 1)] [("rest", 3)] rfl).2.2.1,
   (intermediate_roundtrip
      ["a John Doe 30 flu rest", "b John Doe 30 flu rest",
       "c John Doe 30 cold rest"]
      [("flu", 2), ("cold", 1)] [("rest", 3)] rfl).2.2.2⟩

/-- C6 (counterexample): a diagnosis intermediate file holding the single
unparsable line `"garbage"` does not make the reduce task fail — the
`fmt.Sscanf` error is discarded, the read succeeds, and the misread line is
accumulated as the entry `("garbage", 0)`. -/
theorem malformed_line_not_fatal :
    readPairs [(some ["garbage"], some [])] [] []
      = some ([("garbage", 0)], []) := rfl

/-- C6 (amended): when the intermediate-store reader encounters a line
that does not parse as two whitespace-separated tokens with an integer
second token, the reduce task does not fail: the `Sscanf` error is ignored,
the line contributes its first token (or the empty string) with count 0 to
the running totals, and scanning continues with the remaining lines. -/
theorem sscanf_error_ignored (line : String)
    (h : parsesTwoTokens line = false) (rest : List String) (acc : GoMap) :
    (sscanfValueCount line).2 = 0 ∧
    readLines (line :: rest) acc
      = readLines rest (addCount acc (sscanfValueCount line).1 0) := by
  have h2 : (sscanfValueCount line).2 = 0 := by
    unfold parsesTwoTokens at h
    unfold sscanfValueCount
    cases hw : words line.data with
    | nil => rfl
    | cons w ws =>
      cases ws with
      | nil => rfl
      | cons x r =>
        rw [hw] at h
        have h' : (scanIntTok x).isSome = false := h
        cases hs : scanIntTok x with
        | none =>
          show ((scanIntTok x).getD 0 : Int) = 0
          rw [hs]
          rfl
        | some n =>
          rw [hs] at h'
          simp at h'
  refine ⟨h2, ?_⟩
  show readLines rest
      (addCount acc (sscanfValueCount line).1 (sscanfValueCount line).2) = _
  rw [h2]

/-- Witness for `sscanf_error_ignored` at the one-token line
`"garbage"`. -/
theorem sscanf_error_ignored_witness :
    parsesTwoTokens "garbage" = false ∧
    (sscanfValueCount "garbage").2 = 0 ∧
    readLines ["garbage"] []
      = readLines [] (addCount [] (sscanfValueCount "garbage").1 0) :=
  ⟨rfl, sscanf_error_ignored "garbage" rfl [] []⟩

/-- C9: on successful completion (all intermediate files readable), the
reduce task writes a single report consisting of the `"Diagnosis Counts:"`
header, one `value count` line per diagnosis entry, the
`"Treatment Counts:"` header, and one `value count` line per treatment
entry; both accumulated tables have pairwise-distinct keys, so that is one
line per distinct diagnosis / treatment. -/
theorem reduce_report_format
    (files : List (Option (List String) × Option (List String)))
    (d t : GoMap) (h : readPairs files [] [] = some (d, t)) :
    ReduceTaskRun files = ReduceOutcome.ok ("Diagnosis Counts:" ::
        (serializeTable d ++ "Treatment Counts:" :: serializeTable t)) ∧
    (serializeTable d).length = d.length ∧
    (serializeTable t).length = t.length ∧
    keysNodup d ∧ keysNodup t := by
  have hnd := readPairs_nodup files [] [] d t List.nodup_nil List.nodup_nil h
  refine ⟨?_, by simp [serializeTable], by simp [serializeTable], hnd.1, hnd.2⟩
  unfold ReduceTaskRun
  rw [h]

/-- Witness for `reduce_report_format` on one concrete intermediate file
pair. -/
theorem reduce_report_format_witness :
    ReduceTaskRun [(some ["flu 2"], some ["rest 2"])]
      = ReduceOutcome.ok ("Diagnosis Counts:" ::
          (serializeTable [("flu", 2)] ++
            "Treatment Counts:" :: serializeTable [("rest", 2)])) ∧
    (serializeTable [("flu", 2)]).length = [(("flu" : String), (2 : Int))].length ∧
    (serializeTable [("rest", 2)]).length = [(("rest" : String), (2 : Int))].length ∧
    keysNodup [("flu", 2)] ∧ keysNodup [("rest", 2)] :=
  reduce_report_format [(some ["flu 2"], some ["rest 2"])]
    [("flu", 2)] [("rest", 2)] rfl

/-- On an unbuffered channel, completed sends never outnumber completed
receives, in any reachable state. -/
theorem chan_unbuffered_invariant (a : GoChan) (h0 : a.cap = 0)
    (hs : a.sent ≤ a.received) :
    ∀ b, ChanReach a b → b.cap = 0 ∧ b.sent ≤ b.received := by
  intro b hr
  induction hr with
  | refl => exact ⟨h0, hs⟩
  | tail hab hstep ih =>
    obtain ⟨hc, hle⟩ := ih
    cases hstep with
    | send h => exact absurd h (by omega)
    | recv h => exact ⟨hc, by simp; omega⟩
    | rendezvous h => exact ⟨hc, by simp; omega⟩

/-- Draining the whole map pool: as many calls as queued indices succeed
with exactly those indices, in FIFO order, leaving the pool empty. -/
theorem assignMapN_full (mr : MapReduce) (rt : List Nat) (dn : GoChan) :
    ∀ l : List Nat,
      assignMapN { mr := mr, mapTasks := l, reduceTasks := rt, done := dn } l.length
        = (l.map Except.ok,
           { mr := mr, mapTasks := [], reduceTasks := rt, done := dn }) := by
  intro l
  induction l with
  | nil => rfl
  | cons t l' ih =>
    have hstep : assignMapN
        { mr := mr, mapTasks := t :: l', reduceTasks := rt, done := dn } (l'.length + 1)
        = (Except.ok t ::
            (assignMapN { mr := mr, mapTasks := l', reduceTasks := rt, done := dn } l'.length).1,
           (assignMapN { mr := mr, mapTasks := l', reduceTasks := rt, done := dn } l'.length).2) := rfl
    rw [List.length_cons, hstep, ih]
    rfl

/-- Draining the whole reduce pool, symmetric to `assignMapN_full`. -/
theorem assignReduceN_full (mr : MapReduce) (mt : List Nat) (dn : GoChan) :
    ∀ l : List Nat,
      assignReduceN { mr := mr, mapTasks := mt, reduceTasks := l, done := dn } l.length
        = (l.map Except.ok,
           { mr := mr, mapTasks := mt, reduceTasks := [], done := dn }) := by
  intro l
  induction l with
  | nil => rfl
  | cons t l' ih =>
    have hstep : assignReduceN
        { mr := mr, mapTasks := mt, reduceTasks := t :: l', done := dn } (l'.length + 1)
        = (Except.ok t ::
            (assignReduceN { mr := mr, mapTasks := mt, reduceTasks := l', done := dn } l'.length).1,
           (assignReduceN { mr := mr, mapTasks := mt, reduceTasks := l', done := dn } l'.length).2) := rfl
    rw [List.length_cons, hstep, ih]
    rfl

/-- C2 (counterexample): the claim fails on the code.  `Done` performs
`m.done <- true` on the unbuffered channel created by `make(chan bool)` in
`NewMaster`, and `Wait` performs the matching receive.  After the program's
single `Wait` receive, a state in which a second `Done` send has completed
is unreachable: on the fresh master for one input file there is no
reachable channel state with two completed sends and at most one completed
receive.  The second `Done` caller therefore blocks forever instead of
returning with the gate in a fired state. -/
theorem done_twice_second_call_blocks :
    ¬ ∃ ch : GoChan,
        ChanReach (NewMaster { Files := ["a.txt"], NMap := 1, NReduce := 1 }).done ch ∧
        2 ≤ ch.sent ∧ ch.received ≤ 1 := by
  rintro ⟨ch, hreach, hsent, hrecv⟩
  have h := chan_unbuffered_invariant
    (NewMaster { Files := ["a.txt"], NMap := 1, NReduce := 1 }).done rfl
    (Nat.le_refl 0) ch hreach
  omega

/-- C2 (amended): `Done` sends on the unbuffered `done` channel and `Wait`
receives from it; a send on this channel completes only paired with a
receive, so in every reachable state of the gate the completed `Done` calls
never outnumber the completed `Wait` receives.  Hence a second `Done` call
returns only after a second `Wait` receive and otherwise blocks its caller
forever: the gate holds no persistent fired state that would make a second
fire a harmless no-op. -/
theorem done_gate_sends_le_receives (mr : MapReduce) (ch : GoChan)
    (h : ChanReach (NewMaster mr).done ch) : ch.sent ≤ ch.received :=
  (chan_unbuffered_invariant (NewMaster mr).done rfl (Nat.le_refl 0) ch h).2

/-- Witness for `done_gate_sends_le_receives`: the state after the
program's one `Done`/`Wait` rendezvous is reachable and satisfies the
bound. -/
theorem done_gate_sends_le_receives_witness :
    ({ cap := 0, buffered := 0, sent := 1, received := 1 } : GoChan).sent
      ≤ ({ cap := 0, buffered := 0, sent := 1, received := 1 } : GoChan).received :=
  done_gate_sends_le_receives { Files := ["a.txt"], NMap := 1, NReduce := 1 }
    { cap := 0, buffered := 0, sent := 1, received := 1 }
    (ChanReach.tail (ChanReach.refl _) (ChanStep.rendezvous _ rfl))

/-- C3: on a fresh master with a map pool of size `N = NMap`, the `N`
successive `AssignMapTask` calls all succeed and return the indices
`0 … N-1`, each exactly once (the result list has no duplicates); they
leave the pool empty, and the `(N+1)`-th call fails — without blocking,
since `AssignMapTask` is a total function of the state — with the
`"no more map tasks"` error (the error the spec names `NoTasksAvailable`). -/
theorem lease_pool_exhaustion (mr : MapReduce) :
    (assignMapN (NewMaster mr) mr.NMap).1 = (List.range mr.NMap).map Except.ok ∧
    ((assignMapN (NewMaster mr) mr.NMap).1).Nodup ∧
    (assignMapN (NewMaster mr) mr.NMap).2.mapTasks = [] ∧
    (AssignMapTask (assignMapN (NewMaster mr) mr.NMap).2).1
      = Except.error "no more map tasks" := by
  have h := assignMapN_full mr (List.range mr.NReduce) (mkChan 0) (List.range mr.NMap)
  rw [List.length_range] at h
  unfold NewMaster
  rw [h]
  refine ⟨rfl, ?_, rfl, rfl⟩
  exact List.Nodup.map (fun a b hab => Except.ok.inj hab) (List.nodup_range _)

/-- C10: leases are handed out in FIFO order: on a fresh master the `k`-th
successful `AssignMapTask` call (0-based position `k` in the result list)
returns map task index `k`, and the `j`-th successful `AssignReduceTask`
call returns reduce task index `j`. -/
theorem lease_fifo_order (mr : MapReduce) (k j : Nat)
    (hk : k < mr.NMap) (hj : j < mr.NReduce) :
    (assignMapN (NewMaster mr) mr.NMap).1[k]? = some (Except.ok k) ∧
    (assignReduceN (NewMaster mr) mr.NReduce).1[j]? = some (Except.ok j) := by
  have hm := assignMapN_full mr (List.range mr.NReduce) (mkChan 0) (List.range mr.NMap)
  have hr := assignReduceN_full mr (List.range mr.NMap) (mkChan 0) (List.range mr.NReduce)
  rw [List.length_range] at hm hr
  unfold NewMaster
  rw [hm, hr]
  constructor
  · show ((List.range mr.NMap).map Except.ok)[k]? = some (Except.ok k)
    rw [List.getElem?_map, List.getElem?_range hk]
    rfl
  · show ((List.range mr.NReduce).map Except.ok)[j]? = some (Except.ok j)
    rw [List.getElem?_map, List.getElem?_range hj]
    rfl

/-- Witness for `lease_fifo_order` on a concrete two-file master. -/
theorem lease_fifo_order_witness :
    1 < (2 : Nat) ∧ 0 < (1 : Nat) ∧
    (assignMapN (NewMaster { Files := ["a.txt", "b.txt"], NMap := 2, NReduce := 1 }) 2).1[1]?
      = some (Except.ok 1) ∧
    (assignReduceN (NewMaster { Files := ["a.txt", "b.txt"], NMap := 2, NReduce := 1 }) 1).1[0]?
      = some (Except.ok 0) :=
  ⟨by decide, by decide,
   lease_fifo_order { Files := ["a.txt", "b.txt"], NMap := 2, NReduce := 1 }
     1 0 (by decide) (by decide)⟩

/-- C7: if any map task fails — reporting an I/O error on the results
channel, or panicking on a malformed input line with fewer than six tokens
— the run aborts at the map barrier: the reduce phase never executes and no
final report is produced. -/
theorem map_failure_aborts_run (partitions : List (Option (List String)))
    (h : ∃ p ∈ partitions,
        isPanicked (runMapTask p) = true ∨ isFailed (runMapTask p) = true) :
    (runMain partitions = RunOutcome.crashed ∨
     runMain partitions = RunOutcome.mapFatal) ∧
    ∀ report, runMain partitions ≠ RunOutcome.completed report := by
  obtain ⟨p, hp, hcase⟩ := h
  unfold runMain
  by_cases hpan : (partitions.map runMapTask).any isPanicked = true
  · rw [if_pos hpan]
    exact ⟨Or.inl rfl, fun r hr => by cases hr⟩
  · rw [if_neg hpan]
    have hfail : (partitions.map runMapTask).any isFailed = true := by
      rcases hcase with hc | hc
      · exact absurd (List.any_eq_true.mpr
          ⟨runMapTask p, List.mem_map_of_mem runMapTask hp, hc⟩) hpan
      · exact List.any_eq_true.mpr
          ⟨runMapTask p, List.mem_map_of_mem runMapTask hp, hc⟩
    rw [if_pos hfail]
    exact ⟨Or.inr rfl, fun r hr => by cases hr⟩

/-- Witness for `map_failure_aborts_run` on the spec's scenario: a single
partition holding one four-token line. -/
theorem map_failure_aborts_run_witness :
    (runMain [some ["p1 John Doe 30"]] = RunOutcome.crashed ∨
     runMain [some ["p1 John Doe 30"]] = RunOutcome.mapFatal) ∧
    ∀ report, runMain [some ["p1 John Doe 30"]] ≠ RunOutcome.completed report :=
  map_failure_aborts_run [some ["p1 John Doe 30"]]
    ⟨some ["p1 John Doe 30"], by simp, Or.inl rfl⟩
